import Mathlib

/-!
Verification of the version-aware page store of the RikiWiki repository
(file `wiki/core.py`, class `Page` and the `Processor` pipeline).

Strings are modelled by Lean `String` (lists of characters); Python lists
by Lean lists.  Python code that can raise an uncaught exception
(IndexError from `filename_ext[1]`, ValueError from tuple unpacking,
KeyError from a dict lookup, file-not-found) is modelled with `Option`,
`none` meaning the exception.  The filesystem is an association list from
full file paths (with `/` separators) to file contents; directory
enumeration order is the list order, and directories are implicit in the
paths (so `os.makedirs` has no explicit model).  `os.walk(dir)` is
recursive: it yields every file whose path lies strictly below `dir`.
-/

/-- True on the two path separator characters recognised by `ntpath`. -/
def sepChar (c : Char) : Bool := c == '/' || c == '\\'

/-- Models `ntpath.basename`: the part of the path after the last
separator.  (Drive letters and repeated separators, which no caller of
the source uses, are not modelled.) -/
def get_filename_from_path (p : String) : String :=
  ⟨(p.data.reverse.takeWhile (fun c => !sepChar c)).reverse⟩

/-- Models `ntpath.dirname`: the part of the path before the last
separator, the empty string when there is no separator. -/
def get_path_without_filename (p : String) : String :=
  ⟨((p.data.reverse.dropWhile (fun c => !sepChar c)).reverse).dropLast⟩

/-- Models `filename.rsplit('.', 1)`: a two element list split at the
last dot, or the one element list `[filename]` when there is no dot. -/
def split_filename_from_extension (f : String) : List String :=
  if '.' ∈ f.data then
    [⟨((f.data.reverse.dropWhile (fun c => c != '.')).tail).reverse⟩,
     ⟨(f.data.reverse.takeWhile (fun c => c != '.')).reverse⟩]
  else [f]

/-- Models `re.sub(r'_v\d+$', '', filename)`: removes a trailing
`_v<digits>` group when present (the digits of any match of the anchored
pattern are exactly the maximal trailing digit run). -/
def get_filename_without_version (s : String) : String :=
  let r := s.data.reverse
  let ds := r.takeWhile Char.isDigit
  if ds ≠ [] ∧ (r.drop ds.length).take 2 = ['v', '_'] then
    ⟨(r.drop (ds.length + 2)).reverse⟩
  else s

/-- Source `Page.__get_filename_without_extension`: basename, then component 0
of the extension split (always present, so no failure here). -/
def get_filename_without_extension (fp : String) : String :=
  (split_filename_from_extension (get_filename_from_path fp)).headD ""

/-- Models `re.findall('^.*([0-9]+)$', t)` followed by `int` on the
first result: the greedy `.*` leaves exactly one character to the
capture group, so for newline-free names the result is the numeric value
of the final character when it is a digit, and 0 otherwise.  This is
`Page.__get_version_from_filename`. -/
def get_version_from_filename (filename : String) : Nat :=
  let t := get_filename_without_extension filename
  match t.data.getLast? with
  | some c => if c.isDigit then c.toNat - '0'.toNat else 0
  | none => 0

/-- Source `Page.__get_highest_version_number`: running maximum of the version
extracted from each filename, starting at 0. -/
def get_highest_version_number (file_list : List String) : Nat :=
  file_list.foldl
    (fun version f =>
      let temp := get_version_from_filename f
      if temp > version then temp else version) 0

/-- The filesystem: full path, file content.  List order is the
directory enumeration order of `os.walk`. -/
abbrev Fs := List (String × String)

/-- True when `p` is a proper prefix boundary of `s`
(the characters of `p` start `s`). -/
def strStarts (p s : String) : Bool := s.data.take p.data.length == p.data

/-- Models `os.walk(dir)` restricted to what the source uses: the bare
filenames of every file anywhere below `dir` (the walk is recursive), in
enumeration order. -/
def walkFiles (fs : Fs) (dir : String) : List String :=
  (fs.filter (fun e => strStarts (dir ++ "/") e.1)).map
    (fun e => get_filename_from_path e.1)

/-- Models `f.replace(pat, '', 1)`: remove the first occurrence of
`pat`, or return the input unchanged when `pat` is absent or empty. -/
def removeFirstL (pat : List Char) : List Char → List Char
  | [] => []
  | c :: rest =>
    if pat ≠ [] ∧ (c :: rest).take pat.length = pat then (c :: rest).drop pat.length
    else c :: removeFirstL pat rest

/-- Worker for `replaceAllL`: while `skip` is positive the characters of
an already replaced occurrence are being consumed. -/
def replaceAllGo (pat rep : List Char) : Nat → List Char → List Char
  | _, [] => []
  | Nat.succ k, _ :: rest => replaceAllGo pat rep k rest
  | 0, c :: rest =>
    if pat ≠ [] ∧ (c :: rest).take pat.length = pat then
      rep ++ replaceAllGo pat rep (pat.length - 1) rest
    else c :: replaceAllGo pat rep 0 rest

/-- Models `s.replace(pat, rep)` for nonempty `pat`: replace every
occurrence, scanning left to right without overlap. -/
def replaceAllL (pat rep l : List Char) : List Char := replaceAllGo pat rep 0 l

/-- Models the test `re.match(r'^_v\d+$', temp)`: the whole string is
`_v` followed by at least one digit. -/
def version_suffix_only (t : List Char) : Bool :=
  t.take 2 == ['_', 'v'] && !(t.drop 2).isEmpty && (t.drop 2).all Char.isDigit

/-- The per-file criterion of `Page.__get_all_versions_of_unversioned_file`:
drop the first occurrence of the unversioned stem, drop every occurrence
of `.` + ext, and test that exactly `_v<digits>` is left. -/
def scan_matches (unversioned_filename ext f : String) : Bool :=
  version_suffix_only
    (replaceAllL ('.' :: ext.data) []
      (removeFirstL unversioned_filename.data f.data))

/-- Source `Page.__get_all_versions_of_unversioned_file`: the walked filenames
below `path` that pass the criterion. -/
def get_all_versions_of_unversioned_file (fs : Fs) (path unversioned_filename ext : String) :
    List String :=
  (walkFiles fs path).filter (scan_matches unversioned_filename ext)

/-- Source `Page.__get_all_versions_of_file`.  Here `none` models the IndexError
raised by `filename_ext[1]` when the filename has no dot. -/
def get_all_versions_of_file (fs : Fs) (file_path : String) : Option (List String) :=
  let file_path_without_file := get_path_without_filename file_path
  let filename := get_filename_from_path file_path
  match split_filename_from_extension filename with
  | [st, ex] =>
    some (get_all_versions_of_unversioned_file fs file_path_without_file
      (get_filename_without_version st) ex)
  | _ => none

/-- Source `Page.__get_highest_version_number_from_file_path`. -/
def get_highest_version_number_from_file_path (fs : Fs) (file_path : String) : Option Nat :=
  (get_all_versions_of_file fs file_path).map get_highest_version_number

/-- Source `Page.get_highest_version_of_file_path`: rebuilds the path of the
family member with the computed highest version, or returns the input
path when the computed version is 0. -/
def get_highest_version_of_file_path (fs : Fs) (file_path : String) : Option String :=
  (get_highest_version_number_from_file_path fs file_path).map (fun version =>
    let path := get_path_without_filename file_path
    let filename := get_filename_from_path file_path
    let filename_ext := split_filename_from_extension filename
    let filename_no_version := get_filename_without_version (filename_ext.headD "")
    if version > 0 then
      path ++ "/" ++ filename_no_version ++ "_v" ++ toString version ++ "." ++
        filename_ext.getD 1 ""
    else file_path)

/-- One `Page` object.  `oid` models Python object identity (the default
`==` of `object`, used by the `in` test of `filter_old_versions`);
`meta` models the ordered dict `_meta` (insertion ordered, keys unique);
`body` is the markdown body. -/
structure Page where
  oid : Nat
  path : String
  url : String
  meta : List (String × String)
  body : String
deriving DecidableEq

/-- Worker for `filter_old_versions`: `acc` is the list built so far. -/
def filter_old_versions_from (fs : Fs) (acc : List Page) : List Page → Option (List Page)
  | [] => some acc
  | page :: rest =>
    match get_highest_version_of_file_path fs page.path with
    | none => none
    | some p =>
      if p = page.path then
        if acc.any (fun q => q.oid == page.oid) then filter_old_versions_from fs acc rest
        else filter_old_versions_from fs (acc ++ [page]) rest
      else filter_old_versions_from fs acc rest

/-- Source `Page.filter_old_versions`: keeps the pages whose path is the
highest version of their family, in input order, skipping a page object
already kept (the `in` test compares by object identity). -/
def filter_old_versions (fs : Fs) (pages : List Page) : Option (List Page) :=
  filter_old_versions_from fs [] pages

/-- Source `Page.get_versions`: for each filename of the sibling scan of
`filepath`, in scan order, the pages of `all_versions` whose path is
directory-of-`filepath` + `/` + that filename. -/
def get_versions (fs : Fs) (filepath : String) (all_versions : List Page) :
    Option (List Page) :=
  (get_all_versions_of_file fs filepath).map (fun versions =>
    let path := get_path_without_filename filepath
    versions.flatMap (fun version =>
      all_versions.filter (fun v => path ++ "/" ++ version == v.path)))

/-- One metadata line `key: value` followed by a newline, for each entry
in insertion order: the text `Page.save` writes before the blank line. -/
def metaLinesL : List (String × String) → List Char
  | [] => []
  | kv :: rest => (kv.1.data ++ ':' :: ' ' :: kv.2.data) ++ '\n' :: metaLinesL rest

/-- The full text `Page.save` writes: metadata lines, a blank line, then
the body with `\r\n` normalised to `\n`. -/
def pageFileText (page : Page) : String :=
  ⟨metaLinesL page.meta ++ '\n' :: replaceAllL ['\r', '\n'] ['\n'] page.body.data⟩

/-- Writing a file: replace the content in place when the path exists,
otherwise append the new file at the end of the enumeration order. -/
def fsWrite (fs : Fs) (p c : String) : Fs :=
  if fs.any (fun e => e.1 == p) then
    fs.map (fun e => if e.1 == p then (p, c) else e)
  else fs ++ [(p, c)]

/-- Reading a file; `none` models the missing-file error of `open`. -/
def fsRead (fs : Fs) (p : String) : Option String :=
  (fs.find? (fun e => e.1 == p)).map (fun e => e.2)

/-- Source `Page.save` with `update=False`: compute the next version as the
highest version of the family of the current path plus one, rewrite the
path to `<dir>/<unversioned stem>_v<next>.<ext>`, and write the
metadata-plus-body text there.  Directories are implicit in the
filesystem model, so `os.makedirs` needs no step.  `none` models the
IndexError on a path whose filename has no dot.  (With `update=True` the
source additionally reloads and re-renders, modelled separately by
`fsRead` and `render`; neither touches the filesystem or the path.) -/
def save (fs : Fs) (page : Page) : Option (Fs × Page) :=
  match get_highest_version_number_from_file_path fs page.path with
  | none => none
  | some v =>
    let version := v + 1
    let dirname := get_path_without_filename page.path
    let filename := get_filename_from_path page.path
    let filename_ext := split_filename_from_extension filename
    let filename' := get_filename_without_version (filename_ext.headD "")
    let newPath := dirname ++ "/" ++ filename' ++ "_v" ++ toString version ++ "." ++
      filename_ext.getD 1 ""
    some (fsWrite fs newPath (pageFileText page), { page with path := newPath })

/-- Source `Page.title`: the metadata value at `title`, the url on KeyError. -/
def Page.title (p : Page) : String :=
  match p.meta.lookup "title" with
  | some v => v
  | none => p.url

/-- Source `Page.tags`: the metadata value at `tags`, `""` on KeyError. -/
def Page.tags (p : Page) : String :=
  match p.meta.lookup "tags" with
  | some v => v
  | none => ""

/-- Models `content.split('\n\n', 1)` as used by `Processor.split_raw`:
the parts before and after the first occurrence of the separator, `none`
when the separator is absent (the two element unpacking then raises). -/
def splitOnceL (sep : List Char) : List Char → Option (List Char × List Char)
  | [] => none
  | c :: rest =>
    if sep ≠ [] ∧ (c :: rest).take sep.length = sep then some ([], (c :: rest).drop sep.length)
    else (splitOnceL sep rest).map (fun pr => (c :: pr.1, pr.2))

/-- Source `Processor.split_raw`. -/
def split_raw (content : String) : Option (String × String) :=
  (splitOnceL ['\n', '\n'] content.data).map (fun pr => (⟨pr.1⟩, ⟨pr.2⟩))

/-- Models `s.split('\n')`: the newline-separated pieces, one more piece
than there are newlines. -/
def splitLinesL : List Char → List (List Char)
  | [] => [[]]
  | c :: rest =>
    if c = '\n' then [] :: splitLinesL rest
    else
      match splitLinesL rest with
      | [] => [[c]]
      | h :: t => (c :: h) :: t

/-- The character class `[A-Za-z0-9_-]` of the markdown META_RE. -/
def isKeyChar (c : Char) : Bool := c.isAlpha || c.isDigit || c == '_' || c == '-'

/-- ASCII whitespace as recognised by Python `str.strip`. -/
def isPySpace (c : Char) : Bool :=
  c == ' ' || c == '\t' || c == '\n' || c == '\r' || c == '\x0b' || c == '\x0c'

/-- Models Python `s.strip()` on a line. -/
def pyStrip (l : List Char) : List Char :=
  ((l.dropWhile isPySpace).reverse.dropWhile isPySpace).reverse

/-- Modelled from the spec: one line of the metadata header block of the
wire format of section 6, `key: value` with the key in `[A-Za-z0-9_-]+`
case-folded to lowercase and the value stripped, as parsed by the
external Python-Markdown meta extension collaborator (not part of the
repository source; continuation lines, which no input here produces, are
not modelled).  `none` when the line does not match. -/
def parseMetaLine (line : List Char) : Option (List Char × List Char) :=
  let ks := line.takeWhile isKeyChar
  if ks ≠ [] ∧ (line.drop ks.length).take 1 = [':'] then
    some (ks.map Char.toLower, pyStrip (line.drop (ks.length + 1)))
  else none

/-- The dict update of the meta extension: append the value to the list
of an existing key, else add the key at the end. -/
def mdInsert (m : List (String × List String)) (k v : String) : List (String × List String) :=
  if (m.lookup k).isSome then
    m.map (fun e => if e.1 == k then (e.1, e.2 ++ [v]) else e)
  else m ++ [(k, [v])]

/-- Modelled from the spec: the leading header block parse of the
external meta extension collaborator, consuming matching lines from the
top and stopping at the first blank or non-matching line. -/
def mdMetaAux (acc : List (String × List String)) :
    List (List Char) → List (String × List String)
  | [] => acc
  | line :: rest =>
    match parseMetaLine line with
    | some (k, v) => mdMetaAux (mdInsert acc ⟨k⟩ ⟨v⟩) rest
    | none => acc

/-- The metadata dict `md.Meta` produced by converting `content`. -/
def mdMeta (content : String) : List (String × List String) :=
  mdMetaAux [] (splitLinesL content.data)

/-- Models `'\n'.join(lines)`. -/
def joinNL : List String → String
  | [] => ""
  | [v] => v
  | v :: rest => v ++ "\n" ++ joinNL rest

/-- The ordered dict assignment `meta[key] = value`: overwrite in place,
else append. -/
def ordInsert (m : List (String × String)) (k v : String) : List (String × String) :=
  if (m.lookup k).isSome then
    m.map (fun e => if e.1 == k then (e.1, v) else e)
  else m ++ [(k, v)]

/-- Models `line.split(':', 1)[0]`: the characters before the first
colon, or the whole line when there is none. -/
def takeUntilColon (l : List Char) : List Char := l.takeWhile (fun c => c != ':')

/-- Source `Processor.process_meta`, line by line over the raw header block:
take the key before the colon, lowercase it, look it up in the markdown
meta dict (`none` models the KeyError when absent) and store the joined
value in insertion order. -/
def process_meta_lines (mdm : List (String × List String)) (acc : List (String × String)) :
    List (List Char) → Option (List (String × String))
  | [] => some acc
  | line :: rest =>
    let key : String := ⟨(takeUntilColon line).map Char.toLower⟩
    match mdm.lookup key with
    | none => none
    | some vs => process_meta_lines mdm (ordInsert acc key (joinNL vs)) rest

/-- Source `Processor.process` restricted to the fields `Page.render` keeps as
`_meta` and `body`: split the raw text at the first blank line, then
rebuild the ordered metadata from the header lines and the markdown meta
dict.  The HTML conversion is out of scope and not modelled. -/
def render (content : String) : Option (List (String × String) × String) :=
  match split_raw content with
  | none => none
  | some (meta_raw, markdown) =>
    (process_meta_lines (mdMeta content) [] (splitLinesL meta_raw.data)).map
      (fun meta => (meta, markdown))

/-- Source `Page.load` followed by `Page.render`, keeping metadata and body. -/
def load_render (fs : Fs) (p : String) : Option (List (String × String) × String) :=
  (fsRead fs p).bind render

/-! Generic helper lemmas about the list workers. -/

theorem takeWhile_append_all (p : Char → Bool) (l₁ : List Char) (b : Char) (l₂ : List Char)
    (h₁ : ∀ a ∈ l₁, p a = true) (hb : p b = false) :
    (l₁ ++ b :: l₂).takeWhile p = l₁ := by
  induction l₁ with
  | nil => simp [List.takeWhile_cons, hb]
  | cons c rest ih =>
    have hc : p c = true := h₁ c (by simp)
    simp only [List.cons_append, List.takeWhile_cons, hc, if_true]
    rw [ih (fun a ha => h₁ a (by simp [ha]))]

theorem dropWhile_append_all (p : Char → Bool) (l₁ : List Char) (b : Char) (l₂ : List Char)
    (h₁ : ∀ a ∈ l₁, p a = true) (hb : p b = false) :
    (l₁ ++ b :: l₂).dropWhile p = b :: l₂ := by
  induction l₁ with
  | nil => simp [List.dropWhile_cons, hb]
  | cons c rest ih =>
    have hc : p c = true := h₁ c (by simp)
    simp only [List.cons_append, List.dropWhile_cons, hc, if_true]
    exact ih (fun a ha => h₁ a (by simp [ha]))

theorem map_id_of_mem {α : Type} (f : α → α) (l : List α) (h : ∀ a ∈ l, f a = a) :
    l.map f = l := by
  induction l with
  | nil => rfl
  | cons c rest ih =>
    simp only [List.map_cons, h c (by simp), ih (fun a ha => h a (by simp [ha]))]

theorem removeFirstL_nil_pat (l : List Char) : removeFirstL [] l = l := by
  induction l with
  | nil => rfl
  | cons c rest ih => simp [removeFirstL, ih]

theorem removeFirstL_append (pat tail : List Char) :
    removeFirstL pat (pat ++ tail) = tail := by
  cases pat with
  | nil => exact removeFirstL_nil_pat tail
  | cons c rest =>
    show removeFirstL (c :: rest) (c :: (rest ++ tail)) = tail
    rw [removeFirstL]
    have ht : (c :: (rest ++ tail)).take (c :: rest).length = c :: rest := by
      have h0 := List.take_left (c :: rest) tail
      simp only [List.cons_append] at h0
      exact h0
    have hd : (c :: (rest ++ tail)).drop (c :: rest).length = tail := by
      have h0 := List.drop_left (c :: rest) tail
      simp only [List.cons_append] at h0
      exact h0
    simp [ht, hd]

theorem replaceAllGo_skip_append (pat rep : List Char) (l₁ l₂ : List Char) :
    replaceAllGo pat rep l₁.length (l₁ ++ l₂) = replaceAllGo pat rep 0 l₂ := by
  induction l₁ with
  | nil => rfl
  | cons c rest ih =>
    show replaceAllGo pat rep (rest.length + 1) (c :: (rest ++ l₂)) = _
    rw [replaceAllGo]
    exact ih

theorem removeAll_dot_append (e a : List Char) (h : '.' ∉ a) :
    replaceAllGo ('.' :: e) [] 0 (a ++ '.' :: e) = a := by
  induction a with
  | nil =>
    show replaceAllGo ('.' :: e) [] 0 ('.' :: e) = []
    rw [replaceAllGo]
    have ht : (('.' :: e).take ('.' :: e).length = '.' :: e) := List.take_length _
    simp only [ne_eq, List.cons_ne_nil, not_false_iff, true_and, ht, if_true]
    have : ('.' :: e).length - 1 = e.length := by simp
    rw [this]
    have := replaceAllGo_skip_append ('.' :: e) [] e []
    simpa using this
  | cons c rest ih =>
    have hc : c ≠ '.' := fun hh => h (by simp [hh])
    show replaceAllGo ('.' :: e) [] 0 (c :: (rest ++ '.' :: e)) = c :: rest
    rw [replaceAllGo]
    have hcond : ¬(('.' :: e ≠ []) ∧
        (c :: (rest ++ '.' :: e)).take ('.' :: e).length = '.' :: e) := by
      rintro ⟨-, htake⟩
      rw [List.length_cons, List.take_succ_cons] at htake
      exact hc (List.cons.injEq .. ▸ htake).1
    rw [if_neg hcond]
    rw [ih (fun hh => h (by simp [hh]))]

theorem replaceAll_crlf_of_no_cr (l : List Char) (h : ∀ c ∈ l, c ≠ '\r') :
    replaceAllGo ['\r', '\n'] ['\n'] 0 l = l := by
  induction l with
  | nil => rfl
  | cons c rest ih =>
    have hc : c ≠ '\r' := h c (by simp)
    rw [replaceAllGo]
    have hcond : ¬((['\r', '\n'] ≠ ([] : List Char)) ∧
        (c :: rest).take (['\r', '\n'] : List Char).length = ['\r', '\n']) := by
      rintro ⟨-, htake⟩
      simp only [List.length_cons, List.length_nil, List.take_succ_cons] at htake
      exact hc (List.cons.injEq .. ▸ htake).1
    rw [if_neg hcond]
    rw [ih (fun a ha => h a (by simp [ha]))]

theorem splitOnceL_hit (a tail : List Char) (h : '\n' ∉ a) :
    splitOnceL ['\n', '\n'] (a ++ '\n' :: '\n' :: tail) = some (a, tail) := by
  induction a with
  | nil =>
    show splitOnceL ['\n', '\n'] ('\n' :: '\n' :: tail) = some ([], tail)
    rw [splitOnceL]
    simp
  | cons c rest ih =>
    have hc : c ≠ '\n' := fun hh => h (by simp [hh])
    show splitOnceL ['\n', '\n'] (c :: (rest ++ '\n' :: '\n' :: tail)) = _
    rw [splitOnceL]
    have hcond : ¬((['\n', '\n'] ≠ ([] : List Char)) ∧
        (c :: (rest ++ '\n' :: '\n' :: tail)).take (['\n', '\n'] : List Char).length =
          ['\n', '\n']) := by
      rintro ⟨-, htake⟩
      simp only [List.length_cons, List.length_nil, List.take_succ_cons] at htake
      exact hc (List.cons.injEq .. ▸ htake).1
    rw [if_neg hcond, ih (fun hh => h (by simp [hh]))]
    rfl

theorem splitOnceL_miss (a : List Char) (c : Char) (tail : List Char)
    (ha : '\n' ∉ a) (hc : c ≠ '\n') :
    splitOnceL ['\n', '\n'] (a ++ '\n' :: c :: tail) =
      (splitOnceL ['\n', '\n'] (c :: tail)).map (fun pr => (a ++ '\n' :: pr.1, pr.2)) := by
  induction a with
  | nil =>
    show splitOnceL ['\n', '\n'] ('\n' :: c :: tail) = _
    rw [splitOnceL]
    have hcond : ¬((['\n', '\n'] ≠ ([] : List Char)) ∧
        ('\n' :: c :: tail).take (['\n', '\n'] : List Char).length = ['\n', '\n']) := by
      rintro ⟨-, htake⟩
      simp only [List.length_cons, List.length_nil, List.take_succ_cons,
        List.take_zero] at htake
      exact hc (List.cons.injEq .. ▸ (List.cons.injEq .. ▸ htake).2).1
    rw [if_neg hcond]
    cases hs : splitOnceL ['\n', '\n'] (c :: tail) with
    | none => simp
    | some pr => simp
  | cons d rest ih =>
    have hd : d ≠ '\n' := fun hh => ha (by simp [hh])
    show splitOnceL ['\n', '\n'] (d :: (rest ++ '\n' :: c :: tail)) = _
    rw [splitOnceL]
    have hcond : ¬((['\n', '\n'] ≠ ([] : List Char)) ∧
        (d :: (rest ++ '\n' :: c :: tail)).take (['\n', '\n'] : List Char).length =
          ['\n', '\n']) := by
      rintro ⟨-, htake⟩
      simp only [List.length_cons, List.length_nil, List.take_succ_cons] at htake
      exact hd (List.cons.injEq .. ▸ htake).1
    rw [if_neg hcond, ih (fun hh => ha (by simp [hh]))]
    cases hs : splitOnceL ['\n', '\n'] (c :: tail) with
    | none => simp
    | some pr => simp

theorem splitLinesL_no_newline (a : List Char) (h : '\n' ∉ a) :
    splitLinesL a = [a] := by
  induction a with
  | nil => rfl
  | cons c rest ih =>
    have hc : c ≠ '\n' := fun hh => h (by simp [hh])
    rw [splitLinesL]
    rw [if_neg hc, ih (fun hh => h (by simp [hh]))]

theorem splitLinesL_append (a rest : List Char) (h : '\n' ∉ a) :
    splitLinesL (a ++ '\n' :: rest) = a :: splitLinesL rest := by
  induction a with
  | nil =>
    show splitLinesL ('\n' :: rest) = [] :: splitLinesL rest
    rw [splitLinesL]
    simp
  | cons c cs ih =>
    have hc : c ≠ '\n' := fun hh => h (by simp [hh])
    show splitLinesL (c :: (cs ++ '\n' :: rest)) = _
    rw [splitLinesL]
    rw [if_neg hc, ih (fun hh => h (by simp [hh]))]

/-! Lemmas about the path codec on well-formed paths. -/

/-- No path separator occurs in the string (so `ntpath.basename` keeps
it whole). -/
def noSepStr (s : String) : Prop := ∀ c ∈ s.data, sepChar c = false

theorem data_dir_slash (dir : String) (fnl : List Char) :
    (dir ++ "/").data ++ fnl = dir.data ++ '/' :: fnl := by
  simp [String.data_append]

theorem get_filename_from_path_data (dir : String) (fnl : List Char)
    (h : ∀ c ∈ fnl, sepChar c = false) :
    get_filename_from_path ⟨dir.data ++ '/' :: fnl⟩ = ⟨fnl⟩ := by
  unfold get_filename_from_path
  show (⟨((dir.data ++ '/' :: fnl).reverse.takeWhile fun c => !sepChar c).reverse⟩ : String) = _
  rw [List.reverse_append, List.reverse_cons, List.append_assoc, List.singleton_append]
  rw [takeWhile_append_all _ _ '/' _
    (fun a ha => by simp [h a (List.mem_reverse.mp ha)]) (by decide)]
  rw [List.reverse_reverse]

theorem get_path_without_filename_data (dir : String) (fnl : List Char)
    (h : ∀ c ∈ fnl, sepChar c = false) :
    get_path_without_filename ⟨dir.data ++ '/' :: fnl⟩ = dir := by
  unfold get_path_without_filename
  show (⟨((dir.data ++ '/' :: fnl).reverse.dropWhile fun c => !sepChar c).reverse.dropLast⟩ :
    String) = _
  rw [List.reverse_append, List.reverse_cons, List.append_assoc, List.singleton_append]
  rw [dropWhile_append_all _ _ '/' _
    (fun a ha => by simp [h a (List.mem_reverse.mp ha)]) (by decide)]
  rw [List.reverse_cons, List.reverse_reverse, List.dropLast_concat]

theorem split_filename_data (s ext : String) (hext : '.' ∉ ext.data) :
    split_filename_from_extension ⟨s.data ++ '.' :: ext.data⟩ = [s, ext] := by
  unfold split_filename_from_extension
  have hmem : '.' ∈ (⟨s.data ++ '.' :: ext.data⟩ : String).data := by
    show '.' ∈ s.data ++ '.' :: ext.data
    simp
  rw [if_pos hmem]
  show [(⟨((s.data ++ '.' :: ext.data).reverse.dropWhile fun c => c != '.').tail.reverse⟩ :
      String),
    ⟨((s.data ++ '.' :: ext.data).reverse.takeWhile fun c => c != '.').reverse⟩] = [s, ext]
  rw [List.reverse_append, List.reverse_cons, List.append_assoc, List.singleton_append]
  rw [takeWhile_append_all _ _ '.' _
    (fun a ha => by
      simp only [bne_iff_ne, ne_eq, decide_eq_true_eq]
      exact fun hh => hext (hh ▸ List.mem_reverse.mp ha)) (by decide)]
  rw [dropWhile_append_all _ _ '.' _
    (fun a ha => by
      simp only [bne_iff_ne, ne_eq, decide_eq_true_eq]
      exact fun hh => hext (hh ▸ List.mem_reverse.mp ha)) (by decide)]
  rw [List.reverse_reverse]
  simp

/-! Lemmas about the sibling-scan criterion. -/

theorem scan_matches_unversioned (stem ext : String) :
    scan_matches stem ext (stem ++ "." ++ ext) = false := by
  unfold scan_matches replaceAllL
  have hdata : (stem ++ "." ++ ext).data = stem.data ++ '.' :: ext.data := by
    simp [String.data_append]
  rw [hdata, removeFirstL_append]
  have := removeAll_dot_append ext.data [] (by simp)
  simp only [List.nil_append] at this
  rw [this]
  rfl

theorem scan_matches_versioned (stem ext ds : String)
    (hds : ds.data ≠ []) (hdig : ∀ c ∈ ds.data, c.isDigit = true) :
    scan_matches stem ext (stem ++ "_v" ++ ds ++ "." ++ ext) = true := by
  unfold scan_matches replaceAllL
  have hdata : (stem ++ "_v" ++ ds ++ "." ++ ext).data =
      stem.data ++ (('_' :: 'v' :: ds.data) ++ '.' :: ext.data) := by
    simp [String.data_append]
  rw [hdata, removeFirstL_append]
  rw [removeAll_dot_append ext.data ('_' :: 'v' :: ds.data) (by
    intro hmem
    simp only [List.mem_cons] at hmem
    rcases hmem with h | h | h
    · exact absurd h.symm (by decide)
    · exact absurd h.symm (by decide)
    · have := hdig '.' h
      exact absurd this (by decide))]
  unfold version_suffix_only
  simp only [List.take_succ_cons, List.take_zero, List.drop_succ_cons, List.drop_zero]
  simp only [List.isEmpty_iff, Bool.and_eq_true, beq_self_eq_true, true_and,
    List.all_eq_true, Bool.not_eq_true', decide_eq_true_eq]
  refine ⟨?_, hdig⟩
  cases hd : ds.data with
  | nil => exact absurd hd hds
  | cons a l => rfl

/-- On a structured path `dir/s.ext` the version family lookup reduces
to the sibling scan of `dir` for the unversioned stem of `s`. -/
theorem get_all_versions_structured (fs : Fs) (dir s ext : String)
    (hs : noSepStr s) (hx : noSepStr ext) (hext : '.' ∉ ext.data) :
    get_all_versions_of_file fs (dir ++ "/" ++ s ++ "." ++ ext) =
      some (get_all_versions_of_unversioned_file fs dir
        (get_filename_without_version s) ext) := by
  have hdata : (dir ++ "/" ++ s ++ "." ++ ext) = ⟨dir.data ++ '/' :: (s.data ++ '.' :: ext.data)⟩ := by
    apply String.ext
    simp [String.data_append]
  have hnosep : ∀ c ∈ s.data ++ '.' :: ext.data, sepChar c = false := by
    intro c hc
    simp only [List.mem_append, List.mem_cons] at hc
    rcases hc with h | h | h
    · exact hs c h
    · rw [h]; rfl
    · exact hx c h
  unfold get_all_versions_of_file
  rw [hdata]
  simp only [get_filename_from_path_data _ _ hnosep,
    get_path_without_filename_data _ _ hnosep, split_filename_data s ext hext]

/-! Characterization of `filter_old_versions`. -/

/-- First-occurrence deduplication keyed on object identity: a page is
dropped exactly when its `oid` was seen before. -/
def dedup_by_oid (seen : List Nat) : List Page → List Page
  | [] => []
  | p :: rest =>
    if p.oid ∈ seen then dedup_by_oid seen rest
    else p :: dedup_by_oid (p.oid :: seen) rest

/-- A page whose path already is the highest version of its family. -/
def is_current (fs : Fs) (p : Page) : Bool :=
  get_highest_version_of_file_path fs p.path == some p.path

theorem dedup_by_oid_congr (l : List Page) :
    ∀ s₁ s₂ : List Nat, (∀ x, x ∈ s₁ ↔ x ∈ s₂) → dedup_by_oid s₁ l = dedup_by_oid s₂ l := by
  induction l with
  | nil => intro s₁ s₂ _; rfl
  | cons p rest ih =>
    intro s₁ s₂ h
    unfold dedup_by_oid
    by_cases hp : p.oid ∈ s₁
    · rw [if_pos hp, if_pos ((h p.oid).mp hp)]
      exact ih s₁ s₂ h
    · rw [if_neg hp, if_neg (fun hh => hp ((h p.oid).mpr hh))]
      rw [ih (p.oid :: s₁) (p.oid :: s₂) (fun x => by simp [h x])]

theorem filter_old_versions_from_eq (fs : Fs) (pages : List Page) :
    ∀ acc : List Page,
    (∀ p ∈ pages, (get_highest_version_of_file_path fs p.path).isSome = true) →
    filter_old_versions_from fs acc pages =
      some (acc ++ dedup_by_oid (acc.map Page.oid) (pages.filter (is_current fs))) := by
  induction pages with
  | nil => intro acc _; simp [filter_old_versions_from, dedup_by_oid]
  | cons page rest ih =>
    intro acc h
    obtain ⟨q, hq⟩ := Option.isSome_iff_exists.mp (h page (by simp))
    have hrest : ∀ p ∈ rest, (get_highest_version_of_file_path fs p.path).isSome = true :=
      fun p hp => h p (by simp [hp])
    unfold filter_old_versions_from
    rw [hq]
    dsimp only
    by_cases hqe : q = page.path
    · have hcur : is_current fs page = true := by
        simp [is_current, hq, hqe]
      rw [if_pos hqe]
      by_cases hmem : acc.any (fun q' => q'.oid == page.oid) = true
      · rw [if_pos hmem, ih acc hrest]
        have hin : page.oid ∈ acc.map Page.oid := by
          obtain ⟨q', hq', hbe⟩ := List.any_eq_true.mp hmem
          exact List.mem_map.mpr ⟨q', hq', beq_iff_eq.mp hbe⟩
        simp [List.filter_cons, hcur, dedup_by_oid, hin]
      · rw [if_neg hmem, ih (acc ++ [page]) hrest]
        have hnin : page.oid ∉ acc.map Page.oid := by
          intro hin
          obtain ⟨q', hq', hoid⟩ := List.mem_map.mp hin
          exact hmem (List.any_eq_true.mpr ⟨q', hq', beq_iff_eq.mpr hoid⟩)
        rw [dedup_by_oid_congr _ ((acc ++ [page]).map Page.oid) (page.oid :: acc.map Page.oid)
          (fun x => by simp [or_comm])]
        simp [List.filter_cons, hcur, dedup_by_oid, hnin]
    · have hcur : is_current fs page = false := by
        simp only [is_current, hq, beq_iff_eq, Option.some.injEq]
        exact decide_eq_false hqe
      rw [if_neg hqe, ih acc hrest]
      simp [List.filter_cons, hcur]

/-! The save/load/render round trip. -/

/-- A metadata key that survives the round trip: nonempty, every
character in the `[A-Za-z0-9_-]` class of the meta regex and already
lowercase. -/
def goodKey (k : String) : Prop :=
  k.data ≠ [] ∧ ∀ c ∈ k.data, isKeyChar c = true ∧ c.toLower = c

/-- A metadata value that survives the round trip: a single line with no
carriage return and no surrounding whitespace to be stripped. -/
def goodVal (v : String) : Prop :=
  (∀ c ∈ v.data, c ≠ '\n' ∧ c ≠ '\r') ∧
  v.data.head?.all (fun c => !isPySpace c) = true ∧
  v.data.getLast?.all (fun c => !isPySpace c) = true

/-- A metadata mapping that survives the round trip: nonempty, with
distinct keys, every entry well formed. -/
def goodMeta (meta : List (String × String)) : Prop :=
  meta ≠ [] ∧ (meta.map (fun kv => kv.1)).Nodup ∧
    ∀ kv ∈ meta, goodKey kv.1 ∧ goodVal kv.2

/-- The raw header block of a written page: the metadata lines joined by
single newlines with no trailing newline (what `split('\n\n', 1)`
returns as its first component). -/
def metaRawL : List (String × String) → List Char
  | [] => []
  | [kv] => kv.1.data ++ ':' :: ' ' :: kv.2.data
  | kv :: rest => (kv.1.data ++ ':' :: ' ' :: kv.2.data) ++ '\n' :: metaRawL rest

theorem keyChar_ne_nl {c : Char} (h : isKeyChar c = true) : c ≠ '\n' := by
  intro hh
  rw [hh] at h
  exact absurd h (by decide)

theorem keyChar_ne_colon {c : Char} (h : isKeyChar c = true) : c ≠ ':' := by
  intro hh
  rw [hh] at h
  exact absurd h (by decide)

theorem line_no_newline (k v : String) (hk : goodKey k) (hv : goodVal v) :
    '\n' ∉ (k.data ++ ':' :: ' ' :: v.data) := by
  intro hmem
  simp only [List.mem_append, List.mem_cons] at hmem
  rcases hmem with h | h | h | h
  · exact keyChar_ne_nl (hk.2 _ h).1 rfl
  · exact absurd h.symm (by decide)
  · exact absurd h.symm (by decide)
  · exact (hv.1 _ h).1 rfl

theorem pyStrip_cons_space (l : List Char) : pyStrip (' ' :: l) = pyStrip l := by
  unfold pyStrip
  rw [List.dropWhile_cons_of_pos (by decide)]

theorem pyStrip_of_good (l : List Char)
    (h1 : l.head?.all (fun c => !isPySpace c) = true)
    (h2 : l.getLast?.all (fun c => !isPySpace c) = true) :
    pyStrip l = l := by
  unfold pyStrip
  have hd : l.dropWhile isPySpace = l := by
    cases l with
    | nil => rfl
    | cons c rest =>
      have : isPySpace c = false := by
        simp only [List.head?_cons, Option.all_some, Bool.not_eq_true'] at h1
        exact h1
      rw [List.dropWhile_cons_of_neg (by simp [this])]
  rw [hd]
  have hrev : l.reverse.dropWhile isPySpace = l.reverse := by
    cases hr : l.reverse with
    | nil => rfl
    | cons c rest =>
      have hlast : l.getLast? = some c := by
        rw [← List.head?_reverse, hr, List.head?_cons]
      have : isPySpace c = false := by
        rw [hlast] at h2
        simp only [Option.all_some, Bool.not_eq_true'] at h2
        exact h2
      rw [← hr, hr, List.dropWhile_cons_of_neg (by simp [this]), ← hr]
  rw [hrev, List.reverse_reverse]

theorem parseMetaLine_line (k v : String) (hk : goodKey k) (hv : goodVal v) :
    parseMetaLine (k.data ++ ':' :: ' ' :: v.data) = some (k.data, v.data) := by
  unfold parseMetaLine
  rw [takeWhile_append_all _ _ ':' _ (fun a ha => (hk.2 a ha).1) (by decide)]
  have hcond : (k.data ≠ [] ∧
      ((k.data ++ ':' :: ' ' :: v.data).drop k.data.length).take 1 = [':']) := by
    refine ⟨hk.1, ?_⟩
    rw [List.drop_left]
    rfl
  rw [if_pos hcond]
  have hdrop : (k.data ++ ':' :: ' ' :: v.data).drop (k.data.length + 1) = ' ' :: v.data := by
    rw [← List.drop_drop, List.drop_left]
    rfl
  rw [hdrop, pyStrip_cons_space, pyStrip_of_good _ hv.2.1 hv.2.2]
  rw [map_id_of_mem _ _ (fun c hc => (hk.2 c hc).2)]

theorem lookup_append_of_none {β : Type} (l₁ l₂ : List (String × β)) (a : String)
    (h : l₁.lookup a = none) : (l₁ ++ l₂).lookup a = l₂.lookup a := by
  induction l₁ with
  | nil => rfl
  | cons e rest ih =>
    obtain ⟨k, b⟩ := e
    simp only [List.cons_append, List.lookup] at h ⊢
    cases he : (a == k) with
    | true => rw [he] at h; simp at h
    | false =>
      rw [he] at h
      dsimp only at h
      exact ih h

theorem lookup_singleton_ne {β : Type} (a k : String) (b : β) (h : a ≠ k) :
    ([(k, b)] : List (String × β)).lookup a = none := by
  simp only [List.lookup]
  have he : (a == k) = false := by simp [h]
  rw [he]

theorem splitOnce_metaText (meta : List (String × String)) (b : List Char)
    (hne : meta ≠ [])
    (hgood : ∀ kv ∈ meta, goodKey kv.1 ∧ goodVal kv.2) :
    splitOnceL ['\n', '\n'] (metaLinesL meta ++ '\n' :: b) = some (metaRawL meta, b) := by
  induction meta with
  | nil => exact absurd rfl hne
  | cons kv rest ih =>
    have hline : '\n' ∉ (kv.1.data ++ ':' :: ' ' :: kv.2.data) :=
      line_no_newline kv.1 kv.2 (hgood kv (by simp)).1 (hgood kv (by simp)).2
    cases rest with
    | nil =>
      show splitOnceL ['\n', '\n']
        (((kv.1.data ++ ':' :: ' ' :: kv.2.data) ++ '\n' :: metaLinesL []) ++ '\n' :: b) = _
      have : ((kv.1.data ++ ':' :: ' ' :: kv.2.data) ++ '\n' :: metaLinesL []) ++ '\n' :: b =
          (kv.1.data ++ ':' :: ' ' :: kv.2.data) ++ '\n' :: '\n' :: b := by
        show ((kv.1.data ++ ':' :: ' ' :: kv.2.data) ++ '\n' :: []) ++ '\n' :: b = _
        simp
      rw [this, splitOnceL_hit _ _ hline]
      rfl
    | cons kv2 rest2 =>
      have hk2 : kv2.1.data ≠ [] := ((hgood kv2 (by simp)).1).1
      cases hk2d : kv2.1.data with
      | nil => exact absurd hk2d hk2
      | cons c cs =>
        have hc : c ≠ '\n' := by
          have := ((hgood kv2 (by simp)).1).2 c (by rw [hk2d]; simp)
          exact keyChar_ne_nl this.1
        have hshape : metaLinesL (kv :: kv2 :: rest2) ++ '\n' :: b =
            (kv.1.data ++ ':' :: ' ' :: kv.2.data) ++
              '\n' :: (c :: (cs ++ ':' :: ' ' :: kv2.2.data ++ '\n' :: metaLinesL rest2 ++ '\n' :: b)) := by
          show ((kv.1.data ++ ':' :: ' ' :: kv.2.data) ++
              '\n' :: ((kv2.1.data ++ ':' :: ' ' :: kv2.2.data) ++ '\n' :: metaLinesL rest2)) ++
              '\n' :: b = _
          rw [hk2d]
          simp
        rw [hshape]
        rw [splitOnceL_miss _ _ _ hline hc]
        have hback : c :: (cs ++ ':' :: ' ' :: kv2.2.data ++ '\n' :: metaLinesL rest2 ++ '\n' :: b) =
            metaLinesL (kv2 :: rest2) ++ '\n' :: b := by
          show _ = ((kv2.1.data ++ ':' :: ' ' :: kv2.2.data) ++ '\n' :: metaLinesL rest2) ++ '\n' :: b
          rw [hk2d]
          simp
        rw [hback, ih (by simp) (fun e he => hgood e (by simp [he]))]
        show some ((kv.1.data ++ ':' :: ' ' :: kv.2.data) ++ '\n' :: metaRawL (kv2 :: rest2), b) = _
        rfl

theorem splitLinesL_metaRawL (meta : List (String × String))
    (hgood : ∀ kv ∈ meta, goodKey kv.1 ∧ goodVal kv.2) (hne : meta ≠ []) :
    splitLinesL (metaRawL meta) =
      meta.map (fun kv => kv.1.data ++ ':' :: ' ' :: kv.2.data) := by
  induction meta with
  | nil => exact absurd rfl hne
  | cons kv rest ih =>
    have hline : '\n' ∉ (kv.1.data ++ ':' :: ' ' :: kv.2.data) :=
      line_no_newline kv.1 kv.2 (hgood kv (by simp)).1 (hgood kv (by simp)).2
    cases rest with
    | nil =>
      show splitLinesL (kv.1.data ++ ':' :: ' ' :: kv.2.data) = _
      rw [splitLinesL_no_newline _ hline]
      rfl
    | cons kv2 rest2 =>
      show splitLinesL ((kv.1.data ++ ':' :: ' ' :: kv.2.data) ++ '\n' :: metaRawL (kv2 :: rest2)) = _
      rw [splitLinesL_append _ _ hline,
        ih (fun e he => hgood e (by simp [he])) (by simp)]
      rfl

theorem splitLinesL_content (meta : List (String × String)) (b : List Char)
    (hgood : ∀ kv ∈ meta, goodKey kv.1 ∧ goodVal kv.2) :
    splitLinesL (metaLinesL meta ++ '\n' :: b) =
      meta.map (fun kv => kv.1.data ++ ':' :: ' ' :: kv.2.data) ++ [] :: splitLinesL b := by
  induction meta with
  | nil =>
    show splitLinesL ('\n' :: b) = [] :: splitLinesL b
    rw [splitLinesL]
    simp
  | cons kv rest ih =>
    have hline : '\n' ∉ (kv.1.data ++ ':' :: ' ' :: kv.2.data) :=
      line_no_newline kv.1 kv.2 (hgood kv (by simp)).1 (hgood kv (by simp)).2
    have hshape : metaLinesL (kv :: rest) ++ '\n' :: b =
        (kv.1.data ++ ':' :: ' ' :: kv.2.data) ++ '\n' :: (metaLinesL rest ++ '\n' :: b) := by
      show ((kv.1.data ++ ':' :: ' ' :: kv.2.data) ++ '\n' :: metaLinesL rest) ++ '\n' :: b = _
      simp
    rw [hshape, splitLinesL_append _ _ hline, ih (fun e he => hgood e (by simp [he]))]
    rfl

theorem parseMetaLine_nil : parseMetaLine [] = none := rfl

theorem mdMetaAux_lines (meta : List (String × String)) (tail : List (List Char)) :
    ∀ acc : List (String × List String),
    (∀ kv ∈ meta, goodKey kv.1 ∧ goodVal kv.2) →
    (meta.map (fun kv => kv.1)).Nodup →
    (∀ kv ∈ meta, acc.lookup kv.1 = none) →
    mdMetaAux acc (meta.map (fun kv => kv.1.data ++ ':' :: ' ' :: kv.2.data) ++ [] :: tail) =
      acc ++ meta.map (fun kv => (kv.1, [kv.2])) := by
  induction meta with
  | nil =>
    intro acc _ _ _
    show mdMetaAux acc ([] :: tail) = acc ++ []
    rw [mdMetaAux, parseMetaLine_nil]
    simp
  | cons kv rest ih =>
    intro acc hgood hnodup hdisj
    show mdMetaAux acc ((kv.1.data ++ ':' :: ' ' :: kv.2.data) :: _) = _
    rw [mdMetaAux, parseMetaLine_line kv.1 kv.2 (hgood kv (by simp)).1 (hgood kv (by simp)).2]
    dsimp only
    have heta1 : (⟨kv.1.data⟩ : String) = kv.1 := rfl
    have heta2 : (⟨kv.2.data⟩ : String) = kv.2 := rfl
    rw [heta1, heta2]
    have hins : mdInsert acc kv.1 kv.2 = acc ++ [(kv.1, [kv.2])] := by
      unfold mdInsert
      rw [hdisj kv (by simp)]
      simp
    rw [hins, List.append_eq]
    have hknotin : kv.1 ∉ rest.map (fun kv' => kv'.1) := by
      have := hnodup
      simp only [List.map_cons, List.nodup_cons] at this
      exact this.1
    rw [ih (acc ++ [(kv.1, [kv.2])])
      (fun e he => hgood e (by simp [he]))
      (by simpa using hnodup.of_cons)
      (fun e he => by
        rw [lookup_append_of_none _ _ _ (hdisj e (by simp [he]))]
        refine lookup_singleton_ne _ _ _ (fun hh => hknotin ?_)
        exact hh ▸ List.mem_map.mpr ⟨e, he, rfl⟩)]
    simp

theorem lookup_map_pair (meta : List (String × String))
    (hnodup : (meta.map (fun kv => kv.1)).Nodup) :
    ∀ kv ∈ meta, (meta.map (fun e => (e.1, [e.2]))).lookup kv.1 = some [kv.2] := by
  induction meta with
  | nil => intro kv h; cases h
  | cons e rest ih =>
    intro kv hkv
    rcases List.mem_cons.mp hkv with h | h
    · subst h
      show List.lookup kv.1 ((kv.1, [kv.2]) :: _) = _
      simp [List.lookup]
    · have hne : kv.1 ≠ e.1 := by
        intro hh
        have : e.1 ∈ rest.map (fun kv' => kv'.1) := hh ▸ List.mem_map.mpr ⟨kv, h, rfl⟩
        simp only [List.map_cons, List.nodup_cons] at hnodup
        exact hnodup.1 this
      show List.lookup kv.1 ((e.1, [e.2]) :: _) = _
      rw [List.lookup]
      have : (kv.1 == e.1) = false := by simp [hne]
      rw [this]
      exact ih (by simpa using hnodup.of_cons) kv h

theorem process_meta_lines_map (M : List (String × List String))
    (meta : List (String × String)) :
    ∀ acc : List (String × String),
    (∀ kv ∈ meta, goodKey kv.1) →
    (∀ kv ∈ meta, M.lookup kv.1 = some [kv.2]) →
    (meta.map (fun kv => kv.1)).Nodup →
    (∀ kv ∈ meta, acc.lookup kv.1 = none) →
    process_meta_lines M acc (meta.map (fun kv => kv.1.data ++ ':' :: ' ' :: kv.2.data)) =
      some (acc ++ meta) := by
  induction meta with
  | nil =>
    intro acc _ _ _ _
    show process_meta_lines M acc [] = _
    rw [process_meta_lines]
    simp
  | cons kv rest ih =>
    intro acc hgood hM hnodup hdisj
    show process_meta_lines M acc ((kv.1.data ++ ':' :: ' ' :: kv.2.data) :: _) = _
    rw [process_meta_lines]
    have hkey : takeUntilColon (kv.1.data ++ ':' :: ' ' :: kv.2.data) = kv.1.data := by
      unfold takeUntilColon
      exact takeWhile_append_all _ _ ':' _
        (fun a ha => by
          simp only [bne_iff_ne, ne_eq, decide_eq_true_eq]
          exact keyChar_ne_colon ((hgood kv (by simp)).2 a ha).1) (by decide)
    rw [hkey]
    have hlower : (⟨kv.1.data.map Char.toLower⟩ : String) = kv.1 := by
      rw [map_id_of_mem _ _ (fun c hc => ((hgood kv (by simp)).2 c hc).2)]
    rw [hlower, hM kv (by simp)]
    dsimp only
    have hins : ordInsert acc kv.1 (joinNL [kv.2]) = acc ++ [(kv.1, kv.2)] := by
      unfold ordInsert
      rw [hdisj kv (by simp)]
      simp [joinNL]
    rw [hins]
    have hknotin : kv.1 ∉ rest.map (fun kv' => kv'.1) := by
      simp only [List.map_cons, List.nodup_cons] at hnodup
      exact hnodup.1
    rw [ih (acc ++ [(kv.1, kv.2)])
      (fun e he => hgood e (by simp [he]))
      (fun e he => hM e (by simp [he]))
      (by simpa using hnodup.of_cons)
      (fun e he => by
        rw [lookup_append_of_none _ _ _ (hdisj e (by simp [he]))]
        refine lookup_singleton_ne _ _ _ (fun hh => hknotin ?_)
        exact hh ▸ List.mem_map.mpr ⟨e, he, rfl⟩)]
    simp

/-- Rendering the exact text `save` writes for a good metadata mapping
recovers the metadata and the byte-for-byte body. -/
theorem render_written (meta : List (String × String)) (b : List Char)
    (hgood : goodMeta meta) :
    render ⟨metaLinesL meta ++ '\n' :: b⟩ = some (meta, ⟨b⟩) := by
  obtain ⟨hne, hnodup, hkv⟩ := hgood
  unfold render split_raw
  have hdata : (⟨metaLinesL meta ++ '\n' :: b⟩ : String).data = metaLinesL meta ++ '\n' :: b := rfl
  rw [hdata, splitOnce_metaText meta b hne hkv]
  simp only [Option.map_some']
  have hmd : mdMeta ⟨metaLinesL meta ++ '\n' :: b⟩ =
      meta.map (fun e => (e.1, [e.2])) := by
    unfold mdMeta
    rw [hdata, splitLinesL_content meta b hkv]
    have := mdMetaAux_lines meta (splitLinesL b) []
      hkv hnodup (fun kv _ => rfl)
    rw [this]
    simp
  rw [hmd]
  rw [splitLinesL_metaRawL meta hkv hne]
  rw [process_meta_lines_map _ meta []
    (fun kv h => (hkv kv h).1)
    (lookup_map_pair meta hnodup)
    hnodup
    (fun kv _ => rfl)]
  simp

theorem fsRead_fsWrite (fs : Fs) (p c : String) : fsRead (fsWrite fs p c) p = some c := by
  unfold fsWrite fsRead
  induction fs with
  | nil =>
    simp [List.find?]
  | cons e rest ih =>
    cases he : (e.1 == p) with
    | true =>
      have hany : ((e :: rest).any fun e' => e'.1 == p) = true := by
        simp only [List.any_cons, he, Bool.true_or]
      rw [if_pos hany]
      simp only [List.map_cons, he, if_true]
      rw [List.find?]
      simp
    | false =>
      have hany : ((e :: rest).any fun e' => e'.1 == p) = (rest.any fun e' => e'.1 == p) := by
        simp only [List.any_cons, he, Bool.false_or]
      rw [hany]
      by_cases hr : (rest.any fun e' => e'.1 == p) = true
      · rw [if_pos hr]
        rw [if_pos hr] at ih
        simp only [List.map_cons, he, if_false, Bool.false_eq_true]
        rw [List.find?, he]
        exact ih
      · rw [if_neg hr]
        rw [if_neg hr] at ih
        show ((e :: (rest ++ [(p, c)])).find? fun e' => e'.1 == p).map (fun e' => e'.2) = _
        rw [List.find?, he]
        exact ih

theorem path_eq_mk (dir s ext : String) :
    dir ++ "/" ++ s ++ "." ++ ext = ⟨dir.data ++ '/' :: (s.data ++ '.' :: ext.data)⟩ := by
  apply String.ext
  simp [String.data_append]

theorem structured_nosep (s ext : String) (hs : noSepStr s) (hx : noSepStr ext) :
    ∀ c ∈ s.data ++ '.' :: ext.data, sepChar c = false := by
  intro c hc
  simp only [List.mem_append, List.mem_cons] at hc
  rcases hc with h | h | h
  · exact hs c h
  · rw [h]; rfl
  · exact hx c h

theorem dirname_structured (dir s ext : String) (hs : noSepStr s) (hx : noSepStr ext) :
    get_path_without_filename (dir ++ "/" ++ s ++ "." ++ ext) = dir := by
  rw [path_eq_mk]
  exact get_path_without_filename_data _ _ (structured_nosep s ext hs hx)

/-! Concrete data used by the claim theorems and witnesses. -/

/-- A directory `w` holding versions 3 and 12 of the family `note`. -/
def fsC1 : Fs := [("w/note_v3.md", "three"), ("w/note_v12.md", "twelve")]

/-- A bare page at the logical stem `draft`, before any save. -/
def draftPage : Page :=
  { oid := 0
    path := "wiki/draft.md"
    url := "draft"
    meta := [("title", "Draft"), ("tags", "x, y")]
    body := "Hello" }

/-- The exact text the first save of `draftPage` writes. -/
def draftText : String := "title: Draft\ntags: x, y\n\nHello"

/-- State of `draftPage` after the first save. -/
def draftPage1 : Page := { draftPage with path := "wiki/draft_v1.md" }

/-- State of `draftPage` after the second save. -/
def draftPage2 : Page := { draftPage with path := "wiki/draft_v2.md" }

/-- A directory holding one current file of the family `a`. -/
def fsC4 : Fs := [("w/a_v1.md", "")]

/-- A page object whose path is the current version of its family. -/
def pageA : Page := { oid := 0, path := "w/a_v1.md", url := "a", meta := [], body := "" }

/-- A distinct page object with the same path as `pageA`. -/
def pageB : Page := { oid := 1, path := "w/a_v1.md", url := "a2", meta := [], body := "" }

/-- A family with an unversioned member `other.md` and a version 2. -/
def fsC5 : Fs := [("w/other.md", "o"), ("w/other_v2.md", "o2")]

/-- The page backed by the unversioned (version 0) family member. -/
def pageO : Page := { oid := 0, path := "w/other.md", url := "other", meta := [], body := "" }

/-- The page backed by the versioned family member. -/
def pageV : Page :=
  { oid := 1, path := "w/other_v2.md", url := "other_v2", meta := [], body := "" }

/-- A tree where the only `_v` sibling lives in a subdirectory of `w`,
next to an unversioned file directly in `w`. -/
def fsC6 : Fs := [("w/sub/myfile_v3.txt", ""), ("w/myfile.txt", "")]

/-- A well-formed page used for the round-trip witness. -/
def pageC7 : Page :=
  { oid := 5
    path := "wiki/t.md"
    url := "t"
    meta := [("title", "Test"), ("tags", "one, two")]
    body := "Hello **world**" }

/-- The filesystem produced by saving `pageC7` into an empty store. -/
def fsC7 : Fs := [("wiki/t_v1.md", pageFileText pageC7)]

/-- State of `pageC7` after the save. -/
def pageC7s : Page := { pageC7 with path := "wiki/t_v1.md" }

/-- A page whose path carries no file extension. -/
def pageC8 : Page := { oid := 0, path := "data/notes", url := "notes", meta := [], body := "" }

/-- A page with no metadata at all. -/
def pageC10 : Page := { oid := 0, path := "w/x_v1.md", url := "x", meta := [], body := "b" }

/-! The claims. -/

/-- Claim C1.  The claim states that for a family `s_v<n1>.<ext>`,
`s_v<n2>.<ext>` with `n1 < n2` and `n2` the maximum version,
`get_highest_version_of_file_path` on either path returns the path with
version `n2`.  The code violates this: its version extraction regex
`^.*([0-9]+)$` captures only the final digit, so in a directory holding
`note_v3.md` and `note_v12.md` it computes max(3, 2) = 3 and returns the
`_v3` path from both inputs, although 12 is the maximum version.  This
theorem evaluates the code at that failing input. -/
theorem claim1_highest_version_multi_digit_failing :
    get_highest_version_of_file_path fsC1 "w/note_v12.md" = some "w/note_v3.md" ∧
    get_highest_version_of_file_path fsC1 "w/note_v3.md" = some "w/note_v3.md" := by
  decide

/-- Claim C2.  The claim states that the version extraction returns the
integer value of the entire trailing digit run, so that `myfile_v12`
yields 12.  The code yields 2 there: `re.findall` with the greedy
pattern `^.*([0-9]+)$` captures only the final digit.  The single-digit
examples of the claim (`page1` yields 1, no trailing digit yields 0) do
hold.  This theorem evaluates the code at the failing input and at the
two examples. -/
theorem claim2_version_extraction_last_digit_failing :
    get_version_from_filename "myfile_v12" = 2 ∧
    get_version_from_filename "page1" = 1 ∧
    get_version_from_filename "myfile" = 0 := by
  decide

/-- Claim C3.  Saving the bare page `draftPage` (path `wiki/draft.md`,
no existing file) computes next version 0 + 1, rewrites the path to
`wiki/draft_v1.md` and writes the metadata entries as `key: value`
lines in insertion order, a blank line, then the body; saving again from
the resulting page computes next version 1 + 1 and writes
`wiki/draft_v2.md`, leaving the `wiki/draft_v1.md` entry on disk with
its original content.  (Directories are implicit in the filesystem
model, so the `os.makedirs` step has no separate observable effect.) -/
theorem claim3_save_draft_scenario :
    save [] draftPage = some ([("wiki/draft_v1.md", draftText)], draftPage1) ∧
    save [("wiki/draft_v1.md", draftText)] draftPage1 =
      some ([("wiki/draft_v1.md", draftText), ("wiki/draft_v2.md", draftText)],
        draftPage2) ∧
    draftText = "title: Draft" ++ "\n" ++ "tags: x, y" ++ "\n" ++ "\n" ++ "Hello" := by
  decide

/-- Modelled from the spec: `currentVersionsOf` as section 4.2 words it,
with the first-match deduplication keyed on path equality instead of
object identity, kept for comparison with `filter_old_versions`. -/
def filter_current_spec_from (fs : Fs) (acc : List Page) : List Page → Option (List Page)
  | [] => some acc
  | page :: rest =>
    match get_highest_version_of_file_path fs page.path with
    | none => none
    | some p =>
      if p = page.path then
        if acc.any (fun q => q.path == page.path) then filter_current_spec_from fs acc rest
        else filter_current_spec_from fs (acc ++ [page]) rest
      else filter_current_spec_from fs acc rest

/-- Modelled from the spec: entry point of `filter_current_spec_from`. -/
def filter_current_spec (fs : Fs) (pages : List Page) : Option (List Page) :=
  filter_current_spec_from fs [] pages

/-- Claim C4, counterexample.  The claim says the deduplication of
`filter_old_versions` is decided by path equality rather than object
identity.  On two distinct page objects sharing one current path the
code keeps both (the `in` test uses default object equality, which is
identity), while the path-equality reading of the spec keeps only the
first. -/
theorem claim4_identity_dedup_cex :
    filter_old_versions fsC4 [pageA, pageB] = some [pageA, pageB] ∧
    filter_current_spec fsC4 [pageA, pageB] = some [pageA] ∧
    pageA.path = pageB.path ∧ pageA.oid ≠ pageB.oid := by
  decide

/-- Claim C4, amended.  When no page of the input makes the highest
version lookup raise, `filter_old_versions` returns exactly the pages
`p` with `get_highest_version_of_file_path p.path = p.path`, in input
order, with first-occurrence deduplication keyed on object identity
(`oid`), not on path equality. -/
theorem claim4_filter_old_versions_characterization (fs : Fs) (pages : List Page)
    (h : ∀ p ∈ pages, (get_highest_version_of_file_path fs p.path).isSome = true) :
    filter_old_versions fs pages = some (dedup_by_oid [] (pages.filter (is_current fs))) := by
  unfold filter_old_versions
  rw [filter_old_versions_from_eq fs pages [] h]
  rfl

/-- Witness for the amended claim C4 at a concrete input. -/
theorem claim4_filter_old_versions_characterization_witness :
    filter_old_versions fsC4 [pageA, pageB] =
      some (dedup_by_oid [] (List.filter (is_current fsC4) [pageA, pageB])) :=
  claim4_filter_old_versions_characterization fsC4 [pageA, pageB] (by decide)

/-- Claim C5, counterexample.  The claim says `get_versions` returns the
whole family including the unversioned (version 0) member when one
exists.  In a family holding `other.md` and `other_v2.md`, the sibling
scan only accepts names whose residue is exactly `_v<digits>`, so the
page backed by `other.md` is excluded from the result. -/
theorem claim5_unversioned_member_excluded_cex :
    get_versions fsC5 "w/other_v2.md" [pageO, pageV] = some [pageV] ∧
    pageO.path = "w/other.md" ∧ pageV.path = "w/other_v2.md" ∧
    pageO ∉ [pageV] := by
  decide

/-- Claim C5, amended.  `get_versions` returns, in sibling-scan order,
exactly the pages whose path is the scanned directory joined with a
scanned name; the result is independent of which family member path was
passed in (any two stems with the same unversioned stem give the same
result), but the unversioned version 0 member never passes the scan and
is excluded. -/
theorem claim5_get_versions_family :
    (∀ (fs : Fs) (dir s₁ s₂ ext : String) (pages : List Page),
      noSepStr s₁ → noSepStr s₂ → noSepStr ext → '.' ∉ ext.data →
      get_filename_without_version s₁ = get_filename_without_version s₂ →
      get_versions fs (dir ++ "/" ++ s₁ ++ "." ++ ext) pages =
        get_versions fs (dir ++ "/" ++ s₂ ++ "." ++ ext) pages) ∧
    (∀ stem ext : String, scan_matches stem ext (stem ++ "." ++ ext) = false) := by
  refine ⟨?_, scan_matches_unversioned⟩
  intro fs dir s₁ s₂ ext pages h₁ h₂ hx hext hstrip
  unfold get_versions
  rw [get_all_versions_structured fs dir s₁ ext h₁ hx hext,
    get_all_versions_structured fs dir s₂ ext h₂ hx hext, hstrip,
    dirname_structured dir s₁ ext h₁ hx, dirname_structured dir s₂ ext h₂ hx]

/-- Witness for the amended claim C5 at a concrete family. -/
theorem claim5_get_versions_family_witness :
    get_versions fsC5 ("w" ++ "/" ++ "other_v2" ++ "." ++ "md") [pageO, pageV] =
      get_versions fsC5 ("w" ++ "/" ++ "other" ++ "." ++ "md") [pageO, pageV] ∧
    scan_matches "other" "md" ("other" ++ "." ++ "md") = false :=
  ⟨claim5_get_versions_family.1 fsC5 "w" "other_v2" "other" "md" [pageO, pageV]
      (by unfold noSepStr; decide) (by unfold noSepStr; decide)
      (by unfold noSepStr; decide) (by decide) (by decide),
    claim5_get_versions_family.2 "other" "md"⟩

/-- Claim C6, counterexample.  The claim says the sibling scan returns
exactly the matching files located directly in the directory, not in
subdirectories, and includes a sibling carrying no version suffix.  The
code walks recursively and demands a `_v<digits>` residue: on a tree
holding `w/sub/myfile_v3.txt` and `w/myfile.txt` the scan for stem
`myfile` in `w` returns the subdirectory file and drops the direct,
unversioned sibling. -/
theorem claim6_recursive_scan_cex :
    get_all_versions_of_unversioned_file fsC6 "w" "myfile" "txt" = ["myfile_v3.txt"] := by
  decide

/-- Claim C6, amended.  The scan returns exactly the basenames of the
files anywhere below `directoryOf(filePath)` (the walk is recursive)
that pass the criterion: removing the first occurrence of the
unversioned stem and then every occurrence of `.`+ext leaves exactly
`_v<digits>`.  A name of the shape `stem_v<digits>.ext` always passes,
and the unversioned sibling `stem.ext` never does. -/
theorem claim6_sibling_scan_characterization :
    (∀ (fs : Fs) (dir stem ext name : String),
      name ∈ get_all_versions_of_unversioned_file fs dir stem ext ↔
        ∃ e ∈ fs, strStarts (dir ++ "/") e.1 = true ∧ get_filename_from_path e.1 = name ∧
          scan_matches stem ext name = true) ∧
    (∀ stem ext ds : String, ds.data ≠ [] → (∀ c ∈ ds.data, c.isDigit = true) →
      scan_matches stem ext (stem ++ "_v" ++ ds ++ "." ++ ext) = true) ∧
    (∀ stem ext : String, scan_matches stem ext (stem ++ "." ++ ext) = false) := by
  refine ⟨?_, scan_matches_versioned, scan_matches_unversioned⟩
  intro fs dir stem ext name
  unfold get_all_versions_of_unversioned_file walkFiles
  simp only [List.mem_filter, List.mem_map]
  constructor
  · rintro ⟨⟨e, ⟨hefs, hstart⟩, rfl⟩, hscan⟩
    exact ⟨e, hefs, hstart, rfl, hscan⟩
  · rintro ⟨e, hefs, hstart, rfl, hscan⟩
    exact ⟨⟨e, ⟨hefs, hstart⟩, rfl⟩, hscan⟩

/-- Witness for the amended claim C6 at concrete names. -/
theorem claim6_sibling_scan_characterization_witness :
    scan_matches "myfile" "txt" ("myfile" ++ "_v" ++ "3" ++ "." ++ "txt") = true ∧
    scan_matches "myfile" "txt" ("myfile" ++ "." ++ "txt") = false :=
  ⟨claim6_sibling_scan_characterization.2.1 "myfile" "txt" "3" (by decide) (by decide),
    claim6_sibling_scan_characterization.2.2 "myfile" "txt"⟩

/-- Claim C7.  Round trip: when a page has a nonempty metadata mapping
with distinct, lowercase, single-line entries and a body free of
carriage returns, saving it and then loading and rendering from the
rewritten path recovers exactly the metadata mapping (contents and
order) and the body that were written. -/
theorem claim7_save_load_render_roundtrip (page : Page) (fs fs' : Fs) (page' : Page)
    (hmeta : goodMeta page.meta) (hbody : ∀ c ∈ page.body.data, c ≠ '\r')
    (hsave : save fs page = some (fs', page')) :
    load_render fs' page'.path = some (page.meta, page.body) := by
  unfold save at hsave
  cases hv : get_highest_version_number_from_file_path fs page.path with
  | none => rw [hv] at hsave; cases hsave
  | some v =>
    rw [hv] at hsave
    dsimp only at hsave
    simp only [Option.some.injEq, Prod.mk.injEq] at hsave
    obtain ⟨hfs, hpg⟩ := hsave
    subst hfs
    subst hpg
    unfold load_render
    rw [fsRead_fsWrite]
    have htext : pageFileText page = ⟨metaLinesL page.meta ++ '\n' :: page.body.data⟩ := by
      unfold pageFileText replaceAllL
      rw [replaceAll_crlf_of_no_cr _ hbody]
    rw [Option.some_bind, htext, render_written page.meta page.body.data hmeta]

/-- Witness for claim C7: a concrete save followed by load and render
recovers the metadata and body of `pageC7`. -/
theorem claim7_save_load_render_roundtrip_witness :
    load_render fsC7 pageC7s.path = some (pageC7.meta, pageC7.body) :=
  claim7_save_load_render_roundtrip pageC7 [] fsC7 pageC7s
    (by unfold goodMeta goodKey goodVal; decide) (by decide) (by decide)

/-- Claim C8, counterexample.  The claim offers that on a dotless
filename the extension split either fails or returns a (whole name,
empty extension) pair.  It does neither: `rsplit('.', 1)` returns the
one element list holding the whole name, an ordinary value with no
extension component. -/
theorem claim8_split_no_extension_cex :
    split_filename_from_extension "myfile" = ["myfile"] ∧
    split_filename_from_extension "myfile" ≠ ["myfile", ""] := by
  decide

/-- Claim C8, amended.  On a path whose filename has no dot the split
returns the one element list with the whole name (no extension
component and no failure), and `get_highest_version_of_file_path` and
`save` then raise an uncaught IndexError at `filename_ext[1]` (modelled
as `none`): a failure, not a silent pass-through, though an accidental
crash rather than an explicit typed error. -/
theorem claim8_no_extension_failure (fs : Fs) (page : Page) (p : String)
    (h : '.' ∉ (get_filename_from_path p).data) :
    split_filename_from_extension (get_filename_from_path p) = [get_filename_from_path p] ∧
    get_highest_version_of_file_path fs p = none ∧
    (page.path = p → save fs page = none) := by
  have hsplit : split_filename_from_extension (get_filename_from_path p) =
      [get_filename_from_path p] := by
    unfold split_filename_from_extension
    rw [if_neg h]
  have hall : get_all_versions_of_file fs p = none := by
    unfold get_all_versions_of_file
    simp only [hsplit]
  have hnum : get_highest_version_number_from_file_path fs p = none := by
    unfold get_highest_version_number_from_file_path
    rw [hall]
    rfl
  refine ⟨hsplit, ?_, ?_⟩
  · unfold get_highest_version_of_file_path
    rw [hnum]
    rfl
  · intro hp
    unfold save
    rw [hp, hnum]

/-- Witness for the amended claim C8 at a concrete dotless path. -/
theorem claim8_no_extension_failure_witness :
    split_filename_from_extension (get_filename_from_path "data/notes") =
      [get_filename_from_path "data/notes"] ∧
    get_highest_version_of_file_path [] "data/notes" = none ∧
    save [] pageC8 = none := by
  have h := claim8_no_extension_failure [] pageC8 "data/notes" (by decide)
  exact ⟨h.1, h.2.1, h.2.2 rfl⟩

/-- Claim C9.  `save` (with no reload step, `update=False`) leaves every
in-memory field of the page except `path` unchanged: object identity,
url, the metadata mapping with its insertion order, and the body are
those of the input page. -/
theorem claim9_save_mutates_only_path (fs : Fs) (page : Page) (fs' : Fs) (page' : Page)
    (hsave : save fs page = some (fs', page')) :
    page'.oid = page.oid ∧ page'.url = page.url ∧ page'.meta = page.meta ∧
      page'.body = page.body := by
  unfold save at hsave
  cases hv : get_highest_version_number_from_file_path fs page.path with
  | none => rw [hv] at hsave; cases hsave
  | some v =>
    rw [hv] at hsave
    dsimp only at hsave
    simp only [Option.some.injEq, Prod.mk.injEq] at hsave
    obtain ⟨-, hpg⟩ := hsave
    rw [← hpg]
    exact ⟨rfl, rfl, rfl, rfl⟩

/-- Witness for claim C9 at the concrete first save of `draftPage`. -/
theorem claim9_save_mutates_only_path_witness :
    draftPage1.oid = draftPage.oid ∧ draftPage1.url = draftPage.url ∧
      draftPage1.meta = draftPage.meta ∧ draftPage1.body = draftPage.body :=
  claim9_save_mutates_only_path [] draftPage [("wiki/draft_v1.md", draftText)] draftPage1
    (by decide)

/-- Claim C10.  The `title` accessor falls back to the url and the
`tags` accessor falls back to the empty string when the metadata
mapping lacks the key; both are total functions of the page, so neither
raises on a missing key. -/
theorem claim10_title_tags_fallback (p : Page) :
    (p.meta.lookup "title" = none → Page.title p = p.url) ∧
    (p.meta.lookup "tags" = none → Page.tags p = "") := by
  constructor
  · intro h
    unfold Page.title
    rw [h]
  · intro h
    unfold Page.tags
    rw [h]

/-- Witness for claim C10 on a page with empty metadata. -/
theorem claim10_title_tags_fallback_witness :
    Page.title pageC10 = pageC10.url ∧ Page.tags pageC10 = "" :=
  ⟨(claim10_title_tags_fallback pageC10).1 rfl, (claim10_title_tags_fallback pageC10).2 rfl⟩
